import Mathlib

/-!
Shallow embedding of the incremental streaming-render reconciler of
`asc` (src/internal/conversation/conversation.go, `StartNewConversation`,
lines 213-270), together with theorems checking the natural-language
specification of the reconciler against this code.

The reconciler consumes a stream of text fragments (lines read by
`bufio.Scanner`), appends each fragment plus a newline to an accumulator
(`strings.Builder buffer`), re-renders the full accumulator through an
external renderer (`glow`, modelled as an opaque
`render : String → Option String`, `none` meaning the invocation failed),
and prints only the newly stabilised rendered lines, withholding the
trailing `HELD_OUT_LINE_COUNT` split-lines until end of stream.
-/

namespace Asc

/-- The withheld-line constant, conversation.go line 219
(`const HELD_OUT_LINE_COUNT = 4`). -/
def HELD_OUT_LINE_COUNT : Nat := 4

/-- Model of Go `strings.Split(s, "\n")` on the underlying character list:
splitting on every newline character, so the empty list yields one empty
piece and a trailing newline yields a trailing empty piece.  Used by the
reconciler at conversation.go lines 230, 263 and 264. -/
def splitNlChars : List Char → List (List Char)
  | [] => [[]]
  | c :: cs =>
    let r := splitNlChars cs
    if c = '\n' then [] :: r else (c :: r.headI) :: r.tail

/-- The line list of a rendered output string, as computed by
`strings.Split(s, "\n")` in the Go source. -/
def linesOf (s : String) : List String :=
  (splitNlChars s.data).map (fun l => String.mk l)

/-- The index sequence of the `onFragment` emit loop, conversation.go
lines 265-267: `for i := max(0, len(prevLines)-HELD_OUT_LINE_COUNT);
i < len(curLines)-HELD_OUT_LINE_COUNT; i++`.  Natural-number truncated
subtraction renders Go's `max(0, len-4)` and the empty loop when the
upper bound is negative or below the start. -/
def emitIdx (prev cur : String) : List Nat :=
  List.range' ((linesOf prev).length - HELD_OUT_LINE_COUNT)
    (((linesOf cur).length - HELD_OUT_LINE_COUNT) -
      ((linesOf prev).length - HELD_OUT_LINE_COUNT))

/-- The lines printed by one run of the `onFragment` emit loop
(conversation.go lines 265-267): `fmt.Println(glowOutputLines[i])` for
each loop index. -/
def emitFragment (prev cur : String) : List String :=
  (emitIdx prev cur).map (fun i => (linesOf cur).getD i "")

/-- The index sequence of the end-of-stream flush loop, conversation.go
lines 231-233: `for i := max(0, len(prevLines)-HELD_OUT_LINE_COUNT);
i < len(prevLines); i++`. -/
def flushIdx (prev : String) : List Nat :=
  List.range' ((linesOf prev).length - HELD_OUT_LINE_COUNT)
    ((linesOf prev).length - ((linesOf prev).length - HELD_OUT_LINE_COUNT))

/-- The lines printed by the end-of-stream flush loop (conversation.go
lines 231-233). -/
def flushLines (prev : String) : List String :=
  (flushIdx prev).map (fun i => (linesOf prev).getD i "")

/-- The trimming predicate of conversation.go lines 235-237:
`r == '\n' || r == '\r'`. -/
def isNlCr (c : Char) : Bool := c == '\n' || c == '\r'

/-- Model of `strings.TrimRightFunc(s, func(r rune) bool { return r ==
'\n' || r == '\r' })` (conversation.go lines 235-237): remove the maximal
run of trailing newline and carriage-return characters. -/
def trimResponse (s : String) : String :=
  String.mk ((s.data.reverse.dropWhile isNlCr).reverse)

/-- How the upstream line source ends: a clean end of stream
(`scanner.Err()` nil or `io.EOF`, conversation.go lines 221-229), or a
source error (`scanner.Err()` non-nil and not `io.EOF`). -/
inductive StreamEnd
  | eof
  | srcErr
deriving DecidableEq

/-- The fatal session error kinds of the reconciler: the external
renderer invocation failed (conversation.go lines 259-261), or the
upstream source failed before completion (lines 222-226). -/
inductive SessErr
  | renderError
  | sourceError
deriving DecidableEq

/-- Observable outcome of one streaming session: the lines printed (in
order), the response handed to persistence (`SaveNewConversation`,
conversation.go line 238) when it was invoked, and the error returned. -/
structure SessionResult where
  printed : List String
  persisted : Option String
  err : Option SessErr
deriving DecidableEq

/-- One iteration of the streaming loop for a fragment (conversation.go
lines 243-269): append the fragment plus `"\n"` to the accumulator
(line 243), invoke the renderer on the full accumulator (lines 247-261,
`none` aborts the session), and if the output differs from the previous
one, print the emit-range lines and replace the previous output
(lines 262-269).  Returns the printed lines and the new accumulator and
previous-output state. -/
def stepFragment (render : String → Option String) (buffer prev frag : String) :
    Option (List String × String × String) :=
  match render (buffer ++ frag ++ "\n") with
  | none => none
  | some out =>
    if prev ≠ out then some (emitFragment prev out, buffer ++ frag ++ "\n", out)
    else some ([], buffer ++ frag ++ "\n", prev)

/-- The streaming loop over a list of fragments, threading the
accumulator and previous-output state; the second component is `none`
when a renderer invocation failed (the loop stops, conversation.go
lines 259-261). -/
def runLoop (render : String → Option String) (frags : List String)
    (buffer prev : String) : List String × Option (String × String) :=
  match frags with
  | [] => ([], some (buffer, prev))
  | f :: rest =>
    match stepFragment render buffer prev f with
    | none => ([], none)
    | some (printed, buffer', prev') =>
      let r := runLoop render rest buffer' prev'
      (printed ++ r.1, r.2)

/-- One whole streaming session (conversation.go lines 213-241): run the
loop from the empty accumulator and empty previous output; on a renderer
failure return `renderError` with only the lines printed so far; on a
source error return `sourceError` without flushing the withheld tail; on
a clean end of stream flush the withheld tail (lines 230-233) and hand
the trimmed accumulator to persistence (lines 234-240). -/
def runSession (render : String → Option String) (frags : List String)
    (endK : StreamEnd) : SessionResult :=
  match runLoop render frags "" "" with
  | (printed, none) => ⟨printed, none, some SessErr.renderError⟩
  | (printed, some (buffer, prev)) =>
    match endK with
    | StreamEnd.srcErr => ⟨printed, none, some SessErr.sourceError⟩
    | StreamEnd.eof =>
      ⟨printed ++ flushLines prev, some (trimResponse buffer), none⟩

/-- The printed lines of the loop as a function of the sequence of
rendered outputs alone: each output that differs from the previous state
contributes its emit-range lines, and the state becomes that output. -/
def emitsOf (prev : String) (outs : List String) : List String :=
  match outs with
  | [] => []
  | o :: rest => (if prev = o then [] else emitFragment prev o) ++ emitsOf o rest

/-- The sequence of renderer outputs a session produces: the renderer
applied to each successive accumulator value, `none` if any invocation
fails. -/
def rendersOf (render : String → Option String) (buffer : String)
    (frags : List String) : Option (List String) :=
  match frags with
  | [] => some []
  | f :: rest =>
    match render (buffer ++ f ++ "\n") with
    | none => none
    | some o => (rendersOf render (buffer ++ f ++ "\n") rest).map (o :: ·)

/-- The line positions printed by the `onFragment` emit loops of a
session, as a function of the sequence of rendered outputs. -/
def sessionIdx (prev : String) (outs : List String) : List Nat :=
  match outs with
  | [] => []
  | o :: rest => (if prev = o then [] else emitIdx prev o) ++ sessionIdx o rest

/-- The line positions printed by a whole successful session: the
`onFragment` loops followed by the end-of-stream flush positions. -/
def sessionIdxAll (prev : String) (outs : List String) : List Nat :=
  sessionIdx prev outs ++ flushIdx (outs.getLastD prev)

/-- The emit interval of one effective `onFragment` step, as the loop
writes it: start `max(0, len(prevLines)-4)` as a natural number, end
`len(curLines)-4` as an integer (it can be negative, making the loop
empty). -/
def emitInterval (prev cur : String) : Nat × Int :=
  ((linesOf prev).length - HELD_OUT_LINE_COUNT,
    ((linesOf cur).length : Int) - (HELD_OUT_LINE_COUNT : Int))

/-- The interval of the end-of-stream flush loop: start
`max(0, len(prevLines)-4)`, end `len(prevLines)`. -/
def flushInterval (prev : String) : Nat × Int :=
  ((linesOf prev).length - HELD_OUT_LINE_COUNT, ((linesOf prev).length : Int))

/-- The emit intervals of the effective `onFragment` steps of a session,
in execution order. -/
def sessionIntervals (prev : String) (outs : List String) : List (Nat × Int) :=
  match outs with
  | [] => []
  | o :: rest =>
    (if prev = o then [] else [emitInterval prev o]) ++ sessionIntervals o rest

/-- All emit intervals of a successful session, the final flush
included. -/
def sessionIntervalsAll (prev : String) (outs : List String) : List (Nat × Int) :=
  sessionIntervals prev outs ++ [flushInterval (outs.getLastD prev)]

/-- Stability of one render step: the next output has at least as many
split-lines, and it agrees with the previous output on every line below
the previous withheld window.  This is the assumption the reconciler's
design rationale makes of the renderer (earlier lines are immutable once
enough content streamed past); the code itself does not enforce it. -/
def stableStep (a b : String) : Prop :=
  (linesOf a).length ≤ (linesOf b).length ∧
    (linesOf b).take ((linesOf a).length - HELD_OUT_LINE_COUNT) =
      (linesOf a).take ((linesOf a).length - HELD_OUT_LINE_COUNT)

instance : DecidableRel stableStep := fun a b =>
  inferInstanceAs (Decidable ((linesOf a).length ≤ (linesOf b).length ∧
    (linesOf b).take ((linesOf a).length - HELD_OUT_LINE_COUNT) =
      (linesOf a).take ((linesOf a).length - HELD_OUT_LINE_COUNT)))

/-- Renderers never shrink the split-line count from one output to the
next: the weaker renderer assumption under which no line position is
printed twice. -/
def lenMono (a b : String) : Prop :=
  (linesOf a).length ≤ (linesOf b).length

instance : DecidableRel lenMono := fun a b =>
  inferInstanceAs (Decidable ((linesOf a).length ≤ (linesOf b).length))

/-- The whole output sequence of a session is stable: every consecutive
render step (starting from the given initial state) is a `stableStep`. -/
def stableChain : String → List String → Prop
  | _, [] => True
  | prev, o :: rest => stableStep prev o ∧ stableChain o rest

instance stableChainDec : (prev : String) → (outs : List String) →
    Decidable (stableChain prev outs)
  | _, [] => inferInstanceAs (Decidable True)
  | _, o :: rest =>
    have : Decidable (stableChain o rest) := stableChainDec o rest
    inferInstanceAs (Decidable (_ ∧ _))

/-- The split-line counts of the session's output sequence never
decrease from one render to the next. -/
def lenMonoChain : String → List String → Prop
  | _, [] => True
  | prev, o :: rest => lenMono prev o ∧ lenMonoChain o rest

instance lenMonoChainDec : (prev : String) → (outs : List String) →
    Decidable (lenMonoChain prev outs)
  | _, [] => inferInstanceAs (Decidable True)
  | _, o :: rest =>
    have : Decidable (lenMonoChain o rest) := lenMonoChainDec o rest
    inferInstanceAs (Decidable (_ ∧ _))

/-- Mapping a default-valued index read over a contiguous index range is
the take-then-drop slice of the list, when the range's end is within the
list. -/
theorem map_getD_range' {α : Type} (xs : List α) (d : α) (s m : Nat)
    (hm : m ≤ xs.length) :
    (List.range' s (m - s)).map (fun i => xs.getD i d) = (xs.take m).drop s := by
  apply List.ext_getElem
  · simp [List.length_range']
    omega
  · intro i h1 h2
    simp only [List.getElem_map, List.getElem_range']
    rw [List.getElem_drop, List.getElem_take]
    have hlen : i < (List.range' s (m - s)).length := by
      simpa using h1
    rw [List.length_range'] at hlen
    rw [List.getD_eq_getElem xs d (by omega)]
    congr 1
    omega

/-- The `onFragment` emit loop prints exactly the slice of the current
line list from `max(0, len(prev)-4)` up to `len(cur)-4`. -/
theorem emitFragment_eq_drop_take (prev cur : String) :
    emitFragment prev cur =
      ((linesOf cur).take ((linesOf cur).length - HELD_OUT_LINE_COUNT)).drop
        ((linesOf prev).length - HELD_OUT_LINE_COUNT) := by
  unfold emitFragment emitIdx
  exact map_getD_range' (linesOf cur) "" _ _ (Nat.sub_le _ _)

/-- The end-of-stream flush prints exactly the last
`min(HELD_OUT_LINE_COUNT, len(prev))` lines of the previous output. -/
theorem flushLines_eq_drop (prev : String) :
    flushLines prev =
      (linesOf prev).drop ((linesOf prev).length - HELD_OUT_LINE_COUNT) := by
  unfold flushLines flushIdx
  rw [map_getD_range' (linesOf prev) "" _ _ le_rfl, List.take_length]

/-- Splitting on newline always yields at least one piece. -/
theorem splitNlChars_ne_nil (l : List Char) : splitNlChars l ≠ [] := by
  cases l with
  | nil => simp [splitNlChars]
  | cons c cs =>
    simp only [splitNlChars]
    split <;> simp

/-- Appending a newline character appends one empty piece to the
newline split. -/
theorem splitNlChars_concat_newline (l : List Char) :
    splitNlChars (l ++ ['\n']) = splitNlChars l ++ [[]] := by
  induction l with
  | nil => rfl
  | cons c cs ih =>
    have ih' : splitNlChars (cs.append ['\n']) = splitNlChars cs ++ [[]] := ih
    simp only [List.cons_append, splitNlChars, ih']
    by_cases h : c = '\n'
    · simp [h]
    · simp only [if_neg h]
      cases hsp : splitNlChars cs with
      | nil => exact absurd hsp (splitNlChars_ne_nil cs)
      | cons h0 t0 => simp

/-- The line list of a string is never empty. -/
theorem linesOf_ne_nil (s : String) : linesOf s ≠ [] := by
  unfold linesOf
  intro h
  exact splitNlChars_ne_nil s.data (List.map_eq_nil_iff.mp h)

/-- A string ending in a newline splits into the lines of the rest plus
one trailing empty line. -/
theorem linesOf_append_newline (s : String) :
    linesOf (s ++ "\n") = linesOf s ++ [""] := by
  unfold linesOf
  have hd : (s ++ "\n").data = s.data ++ ['\n'] := String.data_append s "\n"
  rw [hd, splitNlChars_concat_newline, List.map_append]
  rfl

/-- When every renderer invocation succeeds, the streaming loop prints
`emitsOf` of the output sequence, the final accumulator is the left fold
appending each fragment plus a newline, and the final previous-output
state is the last output (or the initial state when no fragment
arrived). -/
theorem runLoop_renders (render : String → Option String) :
    ∀ (frags : List String) (buffer prev : String) (outs : List String),
      rendersOf render buffer frags = some outs →
      runLoop render frags buffer prev =
        (emitsOf prev outs,
          some (frags.foldl (fun b f => b ++ f ++ "\n") buffer,
            outs.getLastD prev)) := by
  intro frags
  induction frags with
  | nil =>
    intro buffer prev outs h
    simp only [rendersOf, Option.some.injEq] at h
    subst h
    simp [runLoop, emitsOf, List.getLastD]
  | cons f rest ih =>
    intro buffer prev outs h
    simp only [rendersOf] at h
    cases hr : render (buffer ++ f ++ "\n") with
    | none => rw [hr] at h; simp at h
    | some o =>
      rw [hr] at h
      cases ho : rendersOf render (buffer ++ f ++ "\n") rest with
      | none => rw [ho] at h; simp at h
      | some outs2 =>
        rw [ho] at h
        simp only [Option.map_some', Option.some.injEq] at h
        subst h
        simp only [runLoop, stepFragment, hr]
        by_cases hp : prev = o
        · rw [if_neg (by simp [hp])]
          simp only [runLoop]
          rw [ih (buffer ++ f ++ "\n") prev outs2 ho]
          simp only [emitsOf, if_pos hp, List.nil_append, List.getLastD_cons,
            List.foldl_cons]
          rw [hp]
        · rw [if_pos hp]
          simp only [runLoop]
          rw [ih (buffer ++ f ++ "\n") o outs2 ho]
          simp only [emitsOf, if_neg hp, List.getLastD_cons, List.foldl_cons]

/-- Core stability argument: starting from a state whose stable prefix
(everything below its withheld window) has already been printed, a chain
of stable render steps followed by the final flush prints exactly the
remaining lines of the last output, so the whole printed transcript is
exactly the last output's line list. -/
theorem stable_run (outs : List String) : ∀ prev : String,
    stableChain prev outs →
    (linesOf prev).take ((linesOf prev).length - HELD_OUT_LINE_COUNT) ++
        (emitsOf prev outs ++ flushLines (outs.getLastD prev)) =
      linesOf (outs.getLastD prev) := by
  induction outs with
  | nil =>
    intro prev _
    simp only [emitsOf, List.nil_append, List.getLastD]
    rw [flushLines_eq_drop, List.take_append_drop]
  | cons o rest ih =>
    intro prev hchain
    obtain ⟨hstep, hchain2⟩ := hchain
    have ih2 := ih o hchain2
    simp only [emitsOf, List.getLastD_cons]
    have hkey : (linesOf prev).take ((linesOf prev).length - HELD_OUT_LINE_COUNT) ++
        (if prev = o then [] else emitFragment prev o) =
        (linesOf o).take ((linesOf o).length - HELD_OUT_LINE_COUNT) := by
      by_cases hp : prev = o
      · simp [hp]
      · rw [if_neg hp, emitFragment_eq_drop_take]
        have h1 : (linesOf prev).length ≤ (linesOf o).length := hstep.1
        have h3 : (linesOf prev).take ((linesOf prev).length - HELD_OUT_LINE_COUNT) =
            ((linesOf o).take ((linesOf o).length - HELD_OUT_LINE_COUNT)).take
              ((linesOf prev).length - HELD_OUT_LINE_COUNT) := by
          rw [List.take_take,
            Nat.min_eq_left (Nat.sub_le_sub_right h1 HELD_OUT_LINE_COUNT),
            hstep.2]
        rw [h3, List.take_append_drop]
    calc (linesOf prev).take ((linesOf prev).length - HELD_OUT_LINE_COUNT) ++
          ((if prev = o then [] else emitFragment prev o) ++ emitsOf o rest ++
            flushLines (rest.getLastD o))
        = ((linesOf prev).take ((linesOf prev).length - HELD_OUT_LINE_COUNT) ++
            (if prev = o then [] else emitFragment prev o)) ++
            (emitsOf o rest ++ flushLines (rest.getLastD o)) := by
          simp [List.append_assoc]
      _ = (linesOf o).take ((linesOf o).length - HELD_OUT_LINE_COUNT) ++
            (emitsOf o rest ++ flushLines (rest.getLastD o)) := by rw [hkey]
      _ = linesOf (rest.getLastD o) := ih2

/-- A deterministic renderer that rewrites line 0 of its previous output
when the second fragment arrives; it refutes claim C1 for arbitrary
renderers. -/
def cexRenderC1 : String → Option String := fun s =>
  if s = "a\n" then some "a0\n\n\n\n"
  else if s = "a\nb\n" then some "b0\n\n\n\n\n"
  else none

/-- C1 (amended): for a finite fragment sequence ending in a successful
end-of-stream, provided every successive rendered output has at least as
many split-lines as its predecessor and agrees with it on all lines
below the predecessor's withheld window (`stableStep`, starting from the
empty initial RenderState), the lines printed over the whole session by
the `onFragment` emit loops together with the end-of-stream flush are
exactly the lines of the final RenderState (the last rendered output),
in order, with no line printed twice and none omitted.  For an arbitrary
deterministic renderer the original claim fails (see the
counterexample). -/
theorem c1_printed_eq_final_render (render : String → Option String)
    (frags : List String) (outs : List String)
    (houts : rendersOf render "" frags = some outs)
    (hstable : stableChain "" outs) :
    (runSession render frags StreamEnd.eof).printed = linesOf (outs.getLastD "") ∧
    (runSession render frags StreamEnd.eof).err = none := by
  have hrun := runLoop_renders render frags "" "" outs houts
  have hmain := stable_run outs "" hstable
  have h0 : (linesOf "").take ((linesOf "").length - HELD_OUT_LINE_COUNT) =
      ([] : List String) := by decide
  rw [h0, List.nil_append] at hmain
  simp only [runSession, hrun]
  exact ⟨hmain, trivial⟩

/-- Witness for C1: a constant renderer is stable, and the session's
printed transcript is exactly the final render's line list. -/
theorem c1_witness :
    (runSession (fun _ => some "r") ["a", "b"] StreamEnd.eof).printed =
      linesOf ((["r", "r"] : List String).getLastD "") ∧
    (runSession (fun _ => some "r") ["a", "b"] StreamEnd.eof).err = none :=
  c1_printed_eq_final_render (fun _ => some "r") ["a", "b"] ["r", "r"]
    (by decide) (by decide)

/-- Counterexample to C1 as stated: with a renderer that rewrites line 0
between the first and second fragment, the session ends in a successful
end-of-stream yet the printed lines are not the lines of the final
rendered output (line 0 was printed from the first render and never
corrected). -/
theorem c1_counterexample :
    rendersOf cexRenderC1 "" ["a", "b"] =
      some ["a0\n\n\n\n", "b0\n\n\n\n\n"] ∧
    (runSession cexRenderC1 ["a", "b"] StreamEnd.eof).err = none ∧
    (runSession cexRenderC1 ["a", "b"] StreamEnd.eof).printed ≠
      linesOf ((["a0\n\n\n\n", "b0\n\n\n\n\n"] : List String).getLastD "") := by
  decide

/-- C2: when the renderer succeeds on the grown accumulator, one
fragment step behaves as specified: if the fresh output equals the
previous RenderState nothing is printed and the state is unchanged;
otherwise exactly the current output's lines at the integer indices in
`[max(0, len(prev)-HELD_OUT_LINE_COUNT), len(cur)-HELD_OUT_LINE_COUNT)`
are printed, in strictly increasing index order, one per line, and the
state becomes the current output. -/
theorem c2_fragment_step (render : String → Option String)
    (buffer prev frag out : String)
    (h : render (buffer ++ frag ++ "\n") = some out) :
    (prev = out →
      stepFragment render buffer prev frag =
        some ([], buffer ++ frag ++ "\n", prev)) ∧
    (prev ≠ out →
      stepFragment render buffer prev frag =
        some (emitFragment prev out, buffer ++ frag ++ "\n", out)) ∧
    (∀ i : Nat, i ∈ emitIdx prev out ↔
      (max 0 (((linesOf prev).length : Int) - (HELD_OUT_LINE_COUNT : Int)) ≤
          (i : Int) ∧
        (i : Int) < ((linesOf out).length : Int) - (HELD_OUT_LINE_COUNT : Int))) ∧
    (emitIdx prev out).Pairwise (· < ·) ∧
    emitFragment prev out =
      (emitIdx prev out).map (fun i => (linesOf out).getD i "") := by
  refine ⟨?_, ?_, ?_, ?_, rfl⟩
  · intro hp
    simp [stepFragment, h, hp]
  · intro hp
    simp [stepFragment, h, hp]
  · intro i
    unfold emitIdx
    rw [List.mem_range'_1]
    unfold HELD_OUT_LINE_COUNT
    omega
  · exact List.pairwise_lt_range' _ _

/-- Witness for C2: a concrete fragment step prints the emit-range lines
and stores the new output as the RenderState. -/
theorem c2_witness :
    stepFragment (fun _ => some "x") "" "" "a" =
      some (emitFragment "" "x", "" ++ "a" ++ "\n", "x") :=
  (c2_fragment_step (fun _ => some "x") "" "" "a" "x" rfl).2.1 (by decide)

/-- Characterisation of the trailing trim (conversation.go lines
234-237): the accumulated text splits as the trimmed response followed
by a run of newline and carriage-return characters, and the trimmed
response does not end in either character. -/
theorem trimResponse_spec (s : String) :
    s.data = (trimResponse s).data ++ (s.data.reverse.takeWhile isNlCr).reverse ∧
    (∀ c ∈ (s.data.reverse.takeWhile isNlCr).reverse, c = '\n' ∨ c = '\r') ∧
    (∀ c, (trimResponse s).data.getLast? = some c → ¬(c = '\n' ∨ c = '\r')) := by
  refine ⟨?_, ?_, ?_⟩
  · show s.data = (s.data.reverse.dropWhile isNlCr).reverse ++
      (s.data.reverse.takeWhile isNlCr).reverse
    rw [← List.reverse_append, List.takeWhile_append_dropWhile,
      List.reverse_reverse]
  · intro c hc
    rw [List.mem_reverse] at hc
    have hp := List.mem_takeWhile_imp hc
    simp only [isNlCr, Bool.or_eq_true, beq_iff_eq] at hp
    exact hp
  · intro c hc
    have hlast : (s.data.reverse.dropWhile isNlCr).reverse.getLast? = some c := hc
    rw [List.getLast?_reverse] at hlast
    have hnot := List.head?_dropWhile_not isNlCr s.data.reverse
    rw [hlast] at hnot
    simp only [isNlCr, Bool.or_eq_true, beq_iff_eq] at hnot
    intro hor
    rcases hor with h1 | h1 <;> simp [h1] at hnot

/-- Helper: a successful fragment step grows the accumulator by exactly
the fragment plus a newline (conversation.go line 243). -/
theorem stepFragment_buffer (render : String → Option String)
    (buffer prev frag : String) (pr : List String) (b p : String)
    (h : stepFragment render buffer prev frag = some (pr, b, p)) :
    b = buffer ++ frag ++ "\n" := by
  unfold stepFragment at h
  cases hr : render (buffer ++ frag ++ "\n") with
  | none => rw [hr] at h; simp at h
  | some o =>
    rw [hr] at h
    dsimp only at h
    by_cases hp : prev = o
    · rw [if_neg (by simp [hp])] at h
      simp only [Option.some.injEq, Prod.mk.injEq] at h
      exact h.2.1.symm
    · rw [if_pos hp] at h
      simp only [Option.some.injEq, Prod.mk.injEq] at h
      exact h.2.1.symm

/-- Helper: the accumulator after a successful loop is the left fold
appending each fragment plus a newline to the initial accumulator
(conversation.go line 243). -/
theorem runLoop_buffer (render : String → Option String) :
    ∀ (frags : List String) (buffer prev : String)
      (printed : List String) (b p : String),
      runLoop render frags buffer prev = (printed, some (b, p)) →
      b = frags.foldl (fun acc f => acc ++ f ++ "\n") buffer := by
  intro frags
  induction frags with
  | nil =>
    intro buffer prev printed b p h
    simp only [runLoop, Prod.mk.injEq, Option.some.injEq, Prod.mk.injEq] at h
    simp [← h.2.1]
  | cons f rest ih =>
    intro buffer prev printed b p h
    simp only [runLoop] at h
    cases hs : stepFragment render buffer prev f with
    | none => rw [hs] at h; simp at h
    | some t =>
      obtain ⟨pr1, b1, p1⟩ := t
      rw [hs] at h
      dsimp only at h
      have h2 : (runLoop render rest b1 p1).2 = some (b, p) := by
        have := congrArg Prod.snd h
        simpa using this
      have hb1 : b1 = buffer ++ f ++ "\n" :=
        stepFragment_buffer render buffer prev f pr1 b1 p1 hs
      have hpr2 : runLoop render rest b1 p1 =
          ((runLoop render rest b1 p1).1, some (b, p)) := by
        rw [← h2]
      have := ih b1 p1 (runLoop render rest b1 p1).1 b p hpr2
      rw [List.foldl_cons, ← hb1]
      exact this

/-- C3: on a clean end of stream after a successful loop, the session
prints, after everything the loop printed, exactly the last RenderState's
lines at the integer indices in
`[max(0, len(prev)-HELD_OUT_LINE_COUNT), len(prev))`, in increasing
order, and hands persistence the accumulated text (the newline-joined
fragments) with its trailing newline and carriage-return characters
removed. -/
theorem c3_completion (render : String → Option String) (frags : List String)
    (printed : List String) (buffer prev : String)
    (h : runLoop render frags "" "" = (printed, some (buffer, prev))) :
    (runSession render frags StreamEnd.eof).printed =
      printed ++ (flushIdx prev).map (fun i => (linesOf prev).getD i "") ∧
    (∀ i : Nat, i ∈ flushIdx prev ↔
      (max 0 (((linesOf prev).length : Int) - (HELD_OUT_LINE_COUNT : Int)) ≤
          (i : Int) ∧
        (i : Int) < ((linesOf prev).length : Int))) ∧
    (flushIdx prev).Pairwise (· < ·) ∧
    (runSession render frags StreamEnd.eof).persisted =
      some (trimResponse buffer) ∧
    buffer = frags.foldl (fun acc f => acc ++ f ++ "\n") "" ∧
    buffer.data = (trimResponse buffer).data ++
      (buffer.data.reverse.takeWhile isNlCr).reverse ∧
    (∀ c ∈ (buffer.data.reverse.takeWhile isNlCr).reverse,
      c = '\n' ∨ c = '\r') ∧
    (∀ c, (trimResponse buffer).data.getLast? = some c →
      ¬(c = '\n' ∨ c = '\r')) := by
  have hspec := trimResponse_spec buffer
  refine ⟨?_, ?_, ?_, ?_, runLoop_buffer render frags "" "" printed buffer prev h,
    hspec.1, hspec.2.1, hspec.2.2⟩
  · simp only [runSession, h]
    rfl
  · intro i
    unfold flushIdx
    rw [List.mem_range'_1]
    unfold HELD_OUT_LINE_COUNT
    omega
  · exact List.pairwise_lt_range' _ _
  · simp only [runSession, h]

/-- Witness for C3: a concrete one-fragment session flushes the withheld
tail and persists the trimmed accumulator. -/
theorem c3_witness :
    (runSession (fun _ => some "x") ["a"] StreamEnd.eof).printed =
      [] ++ (flushIdx "x").map (fun i => (linesOf "x").getD i "") ∧
    (∀ i : Nat, i ∈ flushIdx "x" ↔
      (max 0 (((linesOf "x").length : Int) - (HELD_OUT_LINE_COUNT : Int)) ≤
          (i : Int) ∧
        (i : Int) < ((linesOf "x").length : Int))) ∧
    (flushIdx "x").Pairwise (· < ·) ∧
    (runSession (fun _ => some "x") ["a"] StreamEnd.eof).persisted =
      some (trimResponse "a\n") ∧
    ("a\n" : String) = (["a"] : List String).foldl
      (fun acc f => acc ++ f ++ "\n") "" ∧
    ("a\n" : String).data = (trimResponse "a\n").data ++
      (("a\n" : String).data.reverse.takeWhile isNlCr).reverse ∧
    (∀ c ∈ (("a\n" : String).data.reverse.takeWhile isNlCr).reverse,
      c = '\n' ∨ c = '\r') ∧
    (∀ c, (trimResponse "a\n").data.getLast? = some c →
      ¬(c = '\n' ∨ c = '\r')) :=
  c3_completion (fun _ => some "x") ["a"] [] "a\n" "x" (by decide)

/-- Helper: one-step unfolding of the session intervals. -/
theorem intervalsAll_cons_eq (prev o : String) (rest : List String) :
    sessionIntervalsAll prev (o :: rest) =
      (if prev = o then [] else [emitInterval prev o]) ++
        sessionIntervalsAll o rest := by
  show ((if prev = o then [] else [emitInterval prev o]) ++
      sessionIntervals o rest) ++ [flushInterval ((o :: rest).getLastD prev)] = _
  rw [List.getLastD_cons, List.append_assoc]
  rfl

/-- Helper: one-step unfolding of the session positions. -/
theorem idxAll_cons_eq (prev o : String) (rest : List String) :
    sessionIdxAll prev (o :: rest) =
      (if prev = o then [] else emitIdx prev o) ++ sessionIdxAll o rest := by
  show ((if prev = o then [] else emitIdx prev o) ++
      sessionIdx o rest) ++ flushIdx ((o :: rest).getLastD prev) = _
  rw [List.getLastD_cons, List.append_assoc]
  rfl

/-- Helper: the first interval a session still has in front of it starts
at `max(0, len(current state's lines) - HELD_OUT_LINE_COUNT)`, whether it
comes from the next effective emit or from the final flush. -/
theorem intervalsAll_head_fst : ∀ (outs : List String) (prev : String),
    (sessionIntervalsAll prev outs).head?.map Prod.fst =
      some ((linesOf prev).length - HELD_OUT_LINE_COUNT) := by
  intro outs
  induction outs with
  | nil => intro prev; rfl
  | cons o rest ih =>
    intro prev
    rw [intervalsAll_cons_eq]
    by_cases hp : prev = o
    · rw [if_pos hp, List.nil_append, ih o, hp]
    · rw [if_neg hp]
      rfl

/-- Helper: along any session, the start of each emit interval (final
flush included) is at least the end of the interval before it. -/
theorem intervals_chain : ∀ (outs : List String) (prev : String),
    List.Chain' (fun a b : Nat × Int => a.2 ≤ (b.1 : Int))
      (sessionIntervalsAll prev outs) := by
  intro outs
  induction outs with
  | nil =>
    intro prev
    simp [sessionIntervalsAll, sessionIntervals]
  | cons o rest ih =>
    intro prev
    rw [intervalsAll_cons_eq]
    by_cases hp : prev = o
    · rw [if_pos hp, List.nil_append]
      exact ih o
    · rw [if_neg hp, List.singleton_append, List.chain'_cons']
      refine ⟨?_, ih o⟩
      intro y hy
      have hh := intervalsAll_head_fst rest o
      cases hhd : (sessionIntervalsAll o rest).head? with
      | none => rw [hhd] at hy; cases hy
      | some z =>
        rw [hhd] at hy hh
        have hyz : y = z := by
          cases hy
          rfl
        have hz : z.1 = (linesOf o).length - HELD_OUT_LINE_COUNT := by
          simpa using hh
        subst hyz
        rw [hz]
        show ((linesOf o).length : Int) - (HELD_OUT_LINE_COUNT : Int) ≤ _
        unfold HELD_OUT_LINE_COUNT
        omega

/-- Helper: two adjacent zero-based ranges concatenate. -/
theorem range'_zero_concat (m n : Nat) (hmn : m ≤ n) :
    List.range' 0 m ++ List.range' m (n - m) = List.range' 0 n := by
  have h := List.range'_append 0 m (n - m) 1
  simp only [Nat.zero_add, Nat.one_mul] at h
  rw [h]
  congr 1
  omega

/-- Helper: under never-decreasing rendered line counts, the positions a
session prints (flush included), appended after the positions already
printed for the initial state, are exactly `0, 1, ..., L-1` for `L` the
final state's line count. -/
theorem idx_mono_run : ∀ (outs : List String) (prev : String),
    lenMonoChain prev outs →
    List.range' 0 ((linesOf prev).length - HELD_OUT_LINE_COUNT) ++
        sessionIdxAll prev outs =
      List.range (linesOf (outs.getLastD prev)).length := by
  intro outs
  induction outs with
  | nil =>
    intro prev _
    simp only [sessionIdxAll, sessionIdx, List.getLastD, List.nil_append]
    rw [List.range_eq_range']
    exact range'_zero_concat _ _ (Nat.sub_le _ _)
  | cons o rest ih =>
    intro prev hchain
    obtain ⟨hmono1, hchain2⟩ := hchain
    have ih2 := ih o hchain2
    rw [List.getLastD_cons, idxAll_cons_eq]
    by_cases hp : prev = o
    · rw [if_pos hp, List.nil_append, hp]
      exact ih2
    · rw [if_neg hp, ← List.append_assoc]
      have hcat : List.range' 0 ((linesOf prev).length - HELD_OUT_LINE_COUNT) ++
          emitIdx prev o =
          List.range' 0 ((linesOf o).length - HELD_OUT_LINE_COUNT) := by
        unfold emitIdx
        exact range'_zero_concat _ _
          (Nat.sub_le_sub_right hmono1 HELD_OUT_LINE_COUNT)
      rw [hcat]
      exact ih2

/-- Helper: the loop prints exactly one line per session position. -/
theorem emitsOf_length : ∀ (outs : List String) (prev : String),
    (emitsOf prev outs).length = (sessionIdx prev outs).length := by
  intro outs
  induction outs with
  | nil => intro prev; rfl
  | cons o rest ih =>
    intro prev
    simp only [emitsOf, sessionIdx, List.length_append, ih o]
    by_cases hp : prev = o
    · simp [hp]
    · simp [hp, emitFragment]

/-- C4 (amended): the start index of each emit, the final flush
included, is at least the end index of the immediately preceding emit
(monotonic emit-range advancement), and each session position receives
exactly one printed line; but overlapping intervals — a position printed
twice — are only excluded when the rendered line counts never decrease
across the session (`lenMonoChain`), in which case the printed positions
are pairwise distinct.  For a renderer that shrinks its output the
original claim fails (see the counterexample). -/
theorem c4_no_position_reprinted (outs : List String) :
    List.Chain' (fun a b : Nat × Int => a.2 ≤ (b.1 : Int))
      (sessionIntervalsAll "" outs) ∧
    (lenMonoChain "" outs → (sessionIdxAll "" outs).Nodup) ∧
    (∀ render frags, rendersOf render "" frags = some outs →
      (runSession render frags StreamEnd.eof).printed.length =
        (sessionIdxAll "" outs).length) := by
  refine ⟨intervals_chain outs "", ?_, ?_⟩
  · intro hm
    have hall := idx_mono_run outs "" hm
    have h0 : (linesOf "").length - HELD_OUT_LINE_COUNT = 0 := by decide
    rw [h0, show List.range' 0 0 = ([] : List Nat) from rfl,
      List.nil_append] at hall
    rw [hall]
    exact List.nodup_range _
  · intro render frags hr
    have hrun := runLoop_renders render frags "" "" outs hr
    simp only [runSession, hrun]
    simp [sessionIdxAll, emitsOf_length, flushLines]

/-- A renderer whose output shrinks from ten to five split-lines then
grows to twelve; it makes the session print positions 1 through 5
twice. -/
def cexRenderC4 : String → Option String := fun s =>
  if s = "a\n" then some "\n\n\n\n\n\n\n\n\n"
  else if s = "a\nb\n" then some "\n\n\n\n"
  else if s = "a\nb\nc\n" then some "\n\n\n\n\n\n\n\n\n\n\n"
  else none

/-- Counterexample to C4 as stated: with a shrinking renderer the
session reaches a successful end of stream yet position 1 is printed
twice, so the emitted index intervals overlap. -/
theorem c4_counterexample :
    rendersOf cexRenderC4 "" ["a", "b", "c"] =
      some ["\n\n\n\n\n\n\n\n\n", "\n\n\n\n", "\n\n\n\n\n\n\n\n\n\n\n"] ∧
    (runSession cexRenderC4 ["a", "b", "c"] StreamEnd.eof).err = none ∧
    (sessionIdxAll ""
      ["\n\n\n\n\n\n\n\n\n", "\n\n\n\n", "\n\n\n\n\n\n\n\n\n\n\n"]).count 1 = 2 ∧
    ¬ (sessionIdxAll ""
      ["\n\n\n\n\n\n\n\n\n", "\n\n\n\n", "\n\n\n\n\n\n\n\n\n\n\n"]).Nodup := by
  decide

/-- C5 (amended): when the stream ends immediately with no fragment ever
delivered, the completion step prints exactly one line — the empty
string, one blank line, because the empty initial RenderState splits
into one empty split-line — and the text handed to persistence is the
empty string.  The original claim that nothing is printed fails (see the
counterexample). -/
theorem c5_empty_stream (render : String → Option String) :
    runSession render [] StreamEnd.eof = ⟨[""], some "", none⟩ := by
  have h1 : flushLines "" = [""] := by decide
  have h2 : trimResponse "" = "" := by decide
  show (⟨[] ++ flushLines "", some (trimResponse ""), none⟩ : SessionResult) =
    ⟨[""], some "", none⟩
  rw [h1, h2]
  rfl

/-- Counterexample to C5 as stated: on the empty stream the completion
step does print something — a single empty line — although the persisted
text is indeed empty. -/
theorem c5_counterexample :
    (runSession (fun _ => none) [] StreamEnd.eof).printed ≠ [] ∧
    (runSession (fun _ => none) [] StreamEnd.eof).printed = [""] ∧
    (runSession (fun _ => none) [] StreamEnd.eof).persisted = some "" := by
  decide

/-- Helper: running the loop over an appended fragment list first runs
the prefix; if the prefix succeeds, the rest continues from its final
state and the printed lines concatenate. -/
theorem runLoop_append (render : String → Option String) :
    ∀ (l1 l2 : List String) (buffer prev : String)
      (printed1 : List String) (b1 p1 : String),
      runLoop render l1 buffer prev = (printed1, some (b1, p1)) →
      runLoop render (l1 ++ l2) buffer prev =
        (printed1 ++ (runLoop render l2 b1 p1).1,
          (runLoop render l2 b1 p1).2) := by
  intro l1
  induction l1 with
  | nil =>
    intro l2 buffer prev printed1 b1 p1 h
    simp only [runLoop, Prod.mk.injEq, Option.some.injEq, Prod.mk.injEq] at h
    obtain ⟨h1, h2, h3⟩ := h
    subst h1
    subst h2
    subst h3
    simp
  | cons f rest ih =>
    intro l2 buffer prev printed1 b1 p1 h
    simp only [runLoop] at h
    rw [List.cons_append]
    simp only [runLoop]
    cases hs : stepFragment render buffer prev f with
    | none => rw [hs] at h; simp at h
    | some t =>
      obtain ⟨pr, b2, p2⟩ := t
      rw [hs] at h
      dsimp only at h
      have hfst : pr ++ (runLoop render rest b2 p2).1 = printed1 := by
        have := congrArg Prod.fst h
        simpa using this
      have hsnd : (runLoop render rest b2 p2).2 = some (b1, p1) := by
        have := congrArg Prod.snd h
        simpa using this
      have hrest : runLoop render rest b2 p2 =
          ((runLoop render rest b2 p2).1, some (b1, p1)) := by
        rw [← hsnd]
      dsimp only
      rw [ih l2 b2 p2 (runLoop render rest b2 p2).1 b1 p1 hrest]
      rw [← hfst, List.append_assoc]

/-- C6: when the renderer invocation fails while processing a fragment,
the session returns a render error, nothing at all is printed for that
fragment or for any later fragment — whatever the earlier fragments
printed is the whole output — and persistence is never invoked,
regardless of how the source would have ended. -/
theorem c6_render_failure (render : String → Option String)
    (pre : List String) (f : String) (post : List String)
    (printed1 : List String) (b1 p1 : String) (endK : StreamEnd)
    (hpre : runLoop render pre "" "" = (printed1, some (b1, p1)))
    (hfail : render (b1 ++ f ++ "\n") = none) :
    runSession render (pre ++ f :: post) endK =
      ⟨printed1, none, some SessErr.renderError⟩ := by
  have hstep : stepFragment render b1 p1 f = none := by
    unfold stepFragment
    rw [hfail]
  have hfp : runLoop render (f :: post) b1 p1 = ([], none) := by
    simp only [runLoop, hstep]
  have hloop : runLoop render (pre ++ f :: post) "" "" = (printed1, none) := by
    rw [runLoop_append render pre (f :: post) "" "" printed1 b1 p1 hpre, hfp]
    simp
  simp only [runSession, hloop]

/-- Witness for C6: after one successful fragment, a failing renderer
invocation aborts the session with a render error, no further output and
no persistence. -/
theorem c6_witness :
    runSession (fun s => if s = "x\n" then some "y" else none)
        (["x"] ++ "z" :: ["w"]) StreamEnd.eof =
      ⟨[], none, some SessErr.renderError⟩ :=
  c6_render_failure (fun s => if s = "x\n" then some "y" else none)
    ["x"] "z" ["w"] [] "x\n" "y" StreamEnd.eof (by decide) (by decide)

/-- C7: when the upstream source errors before signaling completion, the
session returns a source error, the withheld tail is never flushed — the
printed output is exactly what the `onFragment` steps already emitted —
and persistence is never invoked. -/
theorem c7_source_error (render : String → Option String) (frags : List String)
    (printed : List String) (buffer prev : String)
    (h : runLoop render frags "" "" = (printed, some (buffer, prev))) :
    runSession render frags StreamEnd.srcErr =
      ⟨printed, none, some SessErr.sourceError⟩ := by
  simp only [runSession, h]

/-- Witness for C7: a concrete session cut off by a source error prints
only the loop's output and persists nothing. -/
theorem c7_witness :
    runSession (fun _ => some "x") ["a"] StreamEnd.srcErr =
      ⟨[], none, some SessErr.sourceError⟩ :=
  c7_source_error (fun _ => some "x") ["a"] [] "a\n" "x" (by decide)

/-- C8: each processed fragment only appends to the accumulator: the new
accumulator is the old one followed by the fragment plus a newline, so
the old accumulator's character sequence is a prefix of the new one. -/
theorem c8_accumulator_append_only (render : String → Option String)
    (buffer prev frag : String) (printed : List String) (b p : String)
    (h : stepFragment render buffer prev frag = some (printed, b, p)) :
    b = buffer ++ frag ++ "\n" ∧ buffer.data <+: b.data := by
  have hb := stepFragment_buffer render buffer prev frag printed b p h
  refine ⟨hb, ?_⟩
  rw [hb]
  exact ⟨frag.data ++ "\n".data, by simp [String.data_append, List.append_assoc]⟩

/-- Witness for C8: one concrete step grows the empty accumulator into
the fragment plus a newline. -/
theorem c8_witness :
    ("a\n" : String) = "" ++ "a" ++ "\n" ∧
    ("" : String).data <+: ("a\n" : String).data :=
  c8_accumulator_append_only (fun _ => some "x") "" "" "a" [] "a\n" "x"
    (by decide)

/-- C9: both emit loops only read indices that are in bounds for the
line list they index — the `onFragment` loop reads the current line list
only within `[max(0, len(prev)-4), len(cur)-4)`, contained in
`[0, len(cur))` whenever non-empty, and the flush loop reads the
previous line list only within `[max(0, len(prev)-4), len(prev))` — and
both are total with no precondition on the renderer's output sizes: on a
shrinking render where the start reaches the end the emit range is
empty. -/
theorem c9_emit_loops_in_bounds (prev cur : String) :
    (∀ i ∈ emitIdx prev cur, i < (linesOf cur).length) ∧
    (∀ i ∈ flushIdx prev, i < (linesOf prev).length) ∧
    ((linesOf cur).length - HELD_OUT_LINE_COUNT ≤
        (linesOf prev).length - HELD_OUT_LINE_COUNT →
      emitIdx prev cur = []) ∧
    emitFragment prev cur =
      (emitIdx prev cur).map (fun i => (linesOf cur).getD i "") ∧
    flushLines prev =
      (flushIdx prev).map (fun i => (linesOf prev).getD i "") := by
  refine ⟨?_, ?_, ?_, rfl, rfl⟩
  · intro i hi
    unfold emitIdx at hi
    rw [List.mem_range'_1] at hi
    omega
  · intro i hi
    unfold flushIdx at hi
    rw [List.mem_range'_1] at hi
    omega
  · intro hle
    unfold emitIdx
    rw [Nat.sub_eq_zero_of_le hle]
    rfl

/-- C10: line sequences come from splitting on the newline character, so
the empty initial RenderState splits into exactly one empty line (not
zero lines), a rendered output ending in a newline has a trailing empty
split-element, the withheld window of `HELD_OUT_LINE_COUNT = 4`
split-elements always contains that trailing element (the emit loop
never reads any of the last four elements), and the end-of-stream flush
always prints at least one line — exactly one empty string when no
fragment ever arrived. -/
theorem c10_newline_split_semantics (s prev cur : String) :
    linesOf "" = [""] ∧
    (linesOf "").length = 1 ∧
    HELD_OUT_LINE_COUNT = 4 ∧
    linesOf (s ++ "\n") = linesOf s ++ [""] ∧
    (linesOf (s ++ "\n")).getLast? = some "" ∧
    (∀ i ∈ emitIdx prev cur, i + HELD_OUT_LINE_COUNT < (linesOf cur).length) ∧
    flushLines prev ≠ [] ∧
    flushLines "" = [""] := by
  refine ⟨by decide, by decide, rfl, linesOf_append_newline s, ?_, ?_, ?_,
    by decide⟩
  · rw [linesOf_append_newline s]
    exact List.getLast?_concat _
  · intro i hi
    unfold emitIdx at hi
    rw [List.mem_range'_1] at hi
    omega
  · have hlen : 1 ≤ (linesOf prev).length := by
      cases h : linesOf prev with
      | nil => exact absurd h (linesOf_ne_nil prev)
      | cons a l => simp
    unfold flushLines flushIdx
    intro hcon
    rw [List.map_eq_nil_iff] at hcon
    have hlen0 := congrArg List.length hcon
    rw [List.length_range'] at hlen0
    simp only [List.length_nil] at hlen0
    unfold HELD_OUT_LINE_COUNT at hlen0
    omega

end Asc
